import Mathlib

/-!
Verification of `services/surfaceflinger/LocklessQueue.h` (a single-consumer,
multi-producer lock-free queue) and of the `TestCounter` helper from
`services/vibratorservice/test/test_utils.h`.

The queue stores entries in two singly linked lists hanging from the atomic
heads `mPush` (newest-first, built by producers with a CAS loop) and `mPop`
(oldest-first, private to the single consumer).  A linked list of entries is
embedded as a Lean `List` of the values held by the entries, ordered from the
head pointer onwards; a null head pointer is the empty list.  `push` links a
new entry in front of `mPush` (the linearisation point is the successful
`compare_exchange`); `pop` either unlinks the head of `mPop`, or exchanges the
whole `mPush` list with null and reverses it in place.  Entry identity (heap
allocation) is modelled separately by `AQueue`, which tags every entry with the
distinct allocation counter value it was created at.
-/

namespace LocklessQueueSpec

/-- State of a `LocklessQueue<T>`: the list hanging from `mPush` (newest
pushed value first, as produced by the CAS prepend) and the list hanging from
`mPop` (next value to pop first). -/
structure LocklessQueue (T : Type) where
  mPush : List T
  mPop : List T
deriving DecidableEq, Repr

/-- A freshly constructed queue: both atomic heads initialised to `nullptr`. -/
def emptyQueue (T : Type) : LocklessQueue T := ⟨[], []⟩

/-- `push(T value)`: allocate an entry holding `value`, point its `mNext` at
the observed `mPush` head, and CAS it in.  Single-threaded (or at the
linearisation point), the effect is to prepend the value to the push list. -/
def push {T : Type} (q : LocklessQueue T) (value : T) : LocklessQueue T :=
  ⟨value :: q.mPush, q.mPop⟩

/-- The reversal loop of `pop` (lines 64-69 of `LocklessQueue.h`).  The
grabbed list is the node `g` followed by the nodes `gs` hanging off its
`mNext`; `popped` is the list accumulated so far (initially null).  While the
current node has a successor, the loop relinks the current node onto `popped`
and advances.  It returns the final `popped` list (stored into `mPop`) and the
final node (whose value is returned and which is deleted). -/
def reverseLoop {T : Type} : T → List T → List T → List T × T
  | g, [], popped => (popped, g)
  | g, n :: rest, popped => reverseLoop n rest (g :: popped)

/-- `pop()`: if `mPop` is non-null, unlink and return its head.  Otherwise
exchange `mPush` with null; if the grabbed list is null return `nullopt`,
else reverse it, store all but the oldest entry into `mPop`, and return the
oldest entry's value. -/
def pop {T : Type} : LocklessQueue T → Option T × LocklessQueue T
  | ⟨mPush, popped :: rest⟩ => (some popped, ⟨mPush, rest⟩)
  | ⟨[], []⟩ => (none, ⟨[], []⟩)
  | ⟨g :: gs, []⟩ =>
    let r := reverseLoop g gs []
    (some r.2, ⟨[], r.1⟩)

/-- `isEmpty()`: load both heads and return the conjunction of the two null
checks; the queue state is read but not written. -/
def isEmptyOp {T : Type} (q : LocklessQueue T) : Bool × LocklessQueue T :=
  ((q.mPush.isEmpty && q.mPop.isEmpty), q)

/-- Abstraction function: the logical FIFO contents of the queue, oldest
first.  The pop list is already oldest-first; the push list is newest-first,
so it contributes its reverse, after the pop list. -/
def absQueue {T : Type} (q : LocklessQueue T) : List T :=
  q.mPop ++ q.mPush.reverse

theorem reverseLoop_acc {T : Type} (gs : List T) :
    ∀ (g : T) (acc : List T),
      reverseLoop g gs acc = ((reverseLoop g gs []).1 ++ acc, (reverseLoop g gs []).2) := by
  induction gs with
  | nil => intro g acc; simp [reverseLoop]
  | cons n rest ih =>
    intro g acc
    simp only [reverseLoop]
    rw [ih n (g :: acc), ih n [g]]
    simp

theorem reverseLoop_reverse {T : Type} (gs : List T) :
    ∀ g : T, (reverseLoop g gs []).2 :: (reverseLoop g gs []).1 = (g :: gs).reverse := by
  induction gs with
  | nil => intro g; simp [reverseLoop]
  | cons n rest ih =>
    intro g
    simp only [reverseLoop]
    rw [reverseLoop_acc rest n [g]]
    have h := ih n
    simp only [List.reverse_cons] at h ⊢
    rw [← h]
    simp

/-- The reversal loop again, instrumented with the number of iterations the
`while (grabbedList->mNext)` loop performs (no other change). -/
def reverseLoopCount {T : Type} : T → List T → List T → (List T × T) × Nat
  | g, [], popped => ((popped, g), 0)
  | g, n :: rest, popped =>
    let r := reverseLoopCount n rest (g :: popped)
    (r.1, r.2 + 1)

/-- `pop()` instrumented with the number of loop iterations it performs (the
only loop in `pop` is the reversal loop). -/
def popCount {T : Type} : LocklessQueue T → (Option T × LocklessQueue T) × Nat
  | ⟨mPush, popped :: rest⟩ => ((some popped, ⟨mPush, rest⟩), 0)
  | ⟨[], []⟩ => ((none, ⟨[], []⟩), 0)
  | ⟨g :: gs, []⟩ =>
    let r := reverseLoopCount g gs []
    ((some r.1.2, ⟨[], r.1.1⟩), r.2)

/-- A single-threaded client operation on the queue. -/
inductive QOp (T : Type) where
  | push (v : T)
  | pop
deriving DecidableEq, Repr

/-- Run a sequence of operations against the two-list queue, recording the
result of every `pop` call in order. -/
def runQueue {T : Type} : LocklessQueue T → List (QOp T) → List (Option T)
  | _, [] => []
  | q, QOp.push v :: ops => runQueue (push q v) ops
  | q, QOp.pop :: ops => (pop q).1 :: runQueue (pop q).2 ops

/-- Specification-side model: a naive FIFO queue held as a plain list, oldest
first; `push` appends at the back, `pop` takes the front.  This definition
follows the spec's description of the intended behaviour, for comparison with
`runQueue`. -/
def runNaive {T : Type} : List T → List (QOp T) → List (Option T)
  | _, [] => []
  | l, QOp.push v :: ops => runNaive (l ++ [v]) ops
  | l, QOp.pop :: ops => l.head? :: runNaive l.tail ops

/-- Allocation-tracking model of the queue: identical to `LocklessQueue`
except that every entry carries the (unique) value of an allocation counter at
the time `push` executed `new Entry(...)`.  Two entries are aliased in the
heap exactly when they carry the same id, so heap-reachability claims become
claims about the id lists. -/
structure AQueue (T : Type) where
  mPush : List (Nat × T)
  mPop : List (Nat × T)
  nextId : Nat
deriving DecidableEq, Repr

/-- A freshly constructed queue in the allocation-tracking model. -/
def emptyAQueue (T : Type) : AQueue T := ⟨[], [], 0⟩

/-- `push` in the allocation-tracking model: the new entry gets the fresh id
`nextId`. -/
def pushA {T : Type} (q : AQueue T) (value : T) : AQueue T :=
  ⟨(q.nextId, value) :: q.mPush, q.mPop, q.nextId + 1⟩

/-- `pop` in the allocation-tracking model (same code as `pop`, entries now
carrying their ids). -/
def popA {T : Type} : AQueue T → Option T × AQueue T
  | ⟨mPush, popped :: rest, n⟩ => (some popped.2, ⟨mPush, rest, n⟩)
  | ⟨[], [], n⟩ => (none, ⟨[], [], n⟩)
  | ⟨g :: gs, [], n⟩ =>
    let r := reverseLoop g gs []
    (some r.2.2, ⟨[], r.1, n⟩)

/-- An operation in the allocation-tracking model; `isEmptyQuery` models a
call to `isEmpty()`, which only loads the two heads. -/
inductive AOp (T : Type) where
  | push (v : T)
  | pop
  | isEmptyQuery
deriving DecidableEq, Repr

/-- One step of the allocation-tracking model. -/
def stepA {T : Type} (q : AQueue T) : AOp T → AQueue T
  | AOp.push v => pushA q v
  | AOp.pop => (popA q).2
  | AOp.isEmptyQuery => q

/-- The state reached from a fresh queue by a sequence of operations. -/
def runA {T : Type} (ops : List (AOp T)) : AQueue T := ops.foldl stepA (emptyAQueue T)

/-- The allocation ids of the entries on a list. -/
def entryIds {T : Type} (l : List (Nat × T)) : List Nat := l.map Prod.fst

/-- Heap sanity invariant: all entry ids on the two lists are pairwise
distinct (no entry sits on both lists, or twice on one list), and every id was
actually allocated (is below the allocation counter). -/
def AInv {T : Type} (q : AQueue T) : Prop :=
  (entryIds (q.mPush ++ q.mPop)).Nodup ∧
  ∀ i ∈ entryIds (q.mPush ++ q.mPop), i < q.nextId

instance {T : Type} [DecidableEq T] (q : AQueue T) : Decidable (AInv q) := by
  unfold AInv; infer_instance

theorem abs_push {T : Type} (q : LocklessQueue T) (v : T) :
    absQueue (push q v) = absQueue q ++ [v] := by
  simp [absQueue, push]

theorem abs_pop_fst {T : Type} (q : LocklessQueue T) :
    (pop q).1 = (absQueue q).head? := by
  rcases q with ⟨mPush, mPop⟩
  cases mPop with
  | cons p rest => simp [pop, absQueue]
  | nil =>
    cases mPush with
    | nil => simp [pop, absQueue]
    | cons g gs =>
      simp only [pop, absQueue, List.nil_append]
      rw [← reverseLoop_reverse gs g]
      simp

theorem abs_pop_snd {T : Type} (q : LocklessQueue T) :
    absQueue (pop q).2 = (absQueue q).tail := by
  rcases q with ⟨mPush, mPop⟩
  cases mPop with
  | cons p rest => simp [pop, absQueue]
  | nil =>
    cases mPush with
    | nil => simp [pop, absQueue]
    | cons g gs =>
      simp only [pop, absQueue, List.nil_append]
      rw [← reverseLoop_reverse gs g]
      simp

theorem reverseLoopCount_eq {T : Type} (gs : List T) :
    ∀ (g : T) (acc : List T),
      reverseLoopCount g gs acc = (reverseLoop g gs acc, gs.length) := by
  induction gs with
  | nil => intro g acc; simp [reverseLoopCount, reverseLoop]
  | cons n rest ih =>
    intro g acc
    simp [reverseLoopCount, reverseLoop, ih]

theorem popCount_fst {T : Type} (q : LocklessQueue T) :
    (popCount q).1 = pop q := by
  rcases q with ⟨mPush, mPop⟩
  cases mPop with
  | cons p rest => simp [popCount, pop]
  | nil =>
    cases mPush with
    | nil => simp [popCount, pop]
    | cons g gs => simp [popCount, pop, reverseLoopCount_eq]

theorem popCount_le {T : Type} (q : LocklessQueue T) :
    (popCount q).2 ≤ q.mPush.length := by
  rcases q with ⟨mPush, mPop⟩
  cases mPop with
  | cons p rest => simp [popCount]
  | nil =>
    cases mPush with
    | nil => simp [popCount]
    | cons g gs => simp [popCount, reverseLoopCount_eq]

theorem runQueue_eq_runNaive {T : Type} (ops : List (QOp T)) :
    ∀ q : LocklessQueue T, runQueue q ops = runNaive (absQueue q) ops := by
  induction ops with
  | nil => intro q; rfl
  | cons op rest ih =>
    intro q
    cases op with
    | push v => simp only [runQueue, runNaive, ih, abs_push]
    | pop => simp only [runQueue, runNaive, ih, abs_pop_fst, abs_pop_snd]

theorem AInv_pushA {T : Type} (q : AQueue T) (v : T) (h : AInv q) :
    AInv (pushA q v) := by
  rcases h with ⟨hnd, hlt⟩
  refine ⟨?_, ?_⟩
  · simp only [pushA, entryIds, List.cons_append, List.map_cons, List.nodup_cons]
    exact ⟨fun hmem => lt_irrefl _ (hlt _ hmem), hnd⟩
  · intro i hi
    simp only [pushA, entryIds, List.cons_append, List.map_cons, List.mem_cons] at hi
    rcases hi with rfl | hi
    · exact Nat.lt_succ_self _
    · exact Nat.lt_succ_of_lt (hlt _ hi)

theorem AInv_popA {T : Type} (q : AQueue T) (h : AInv q) :
    AInv (popA q).2 := by
  rcases q with ⟨mPush, mPop, n⟩
  rcases h with ⟨hnd, hlt⟩
  cases mPop with
  | cons p rest =>
    simp only [popA]
    have hsub : List.Sublist (entryIds (mPush ++ rest)) (entryIds (mPush ++ p :: rest)) := by
      apply List.Sublist.map
      exact List.Sublist.append (List.Sublist.refl mPush)
        ((List.Sublist.refl rest).cons p)
    exact ⟨hnd.sublist hsub, fun i hi => hlt i (hsub.mem hi)⟩
  | nil =>
    cases mPush with
    | nil => exact ⟨hnd, hlt⟩
    | cons g gs =>
      simp only [popA]
      have hmap : (reverseLoop g gs []).2.1 :: entryIds (reverseLoop g gs []).1
          = entryIds ((g :: gs).reverse) := by
        rw [entryIds, entryIds, ← List.map_cons, reverseLoop_reverse gs g]
      have hndrev : (entryIds ((g :: gs).reverse)).Nodup := by
        rw [entryIds, List.map_reverse, List.nodup_reverse]
        rw [List.append_nil] at hnd
        exact hnd
      constructor
      · have hc := hndrev
        rw [← hmap, List.nodup_cons] at hc
        simpa [entryIds] using hc.2
      · intro i hi
        have hi2 : i ∈ entryIds ((g :: gs).reverse) := by
          rw [← hmap]
          exact List.mem_cons_of_mem _ (by simpa [entryIds] using hi)
        rw [entryIds, List.map_reverse, List.mem_reverse] at hi2
        apply hlt i
        rw [List.append_nil]
        exact hi2

theorem AInv_stepA {T : Type} (q : AQueue T) (op : AOp T) (h : AInv q) :
    AInv (stepA q op) := by
  cases op with
  | push v => exact AInv_pushA q v h
  | pop => exact AInv_popA q h
  | isEmptyQuery => exact h

theorem AInv_runA {T : Type} (ops : List (AOp T)) : AInv (runA ops) := by
  have base : AInv (emptyAQueue T) := by
    constructor <;> simp [emptyAQueue, entryIds]
  rw [runA]
  generalize emptyAQueue T = q at base ⊢
  induction ops generalizing q with
  | nil => exact base
  | cons op rest ih => exact ih _ (AInv_stepA q op base)

/-- C1: every single-threaded sequence of push and pop calls on the two-list
queue returns exactly what a naive FIFO queue returns, under the abstraction
"pop list followed by the reversed push list"; in particular pushing 1, 2, 3
and popping three times yields 1, 2, 3, and pushing 10, 20, popping once
(10), pushing 30, then popping twice more yields 20 then 30 across the
pop-list/push-list refill boundary. -/
theorem singleThread_fifo :
    (∀ (T : Type) (ops : List (QOp T)) (q : LocklessQueue T),
      runQueue q ops = runNaive (absQueue q) ops) ∧
    runQueue (emptyQueue Nat)
      [QOp.push 1, QOp.push 2, QOp.push 3, QOp.pop, QOp.pop, QOp.pop]
      = [some 1, some 2, some 3] ∧
    runQueue (emptyQueue Nat)
      [QOp.push 10, QOp.push 20, QOp.pop, QOp.push 30, QOp.pop, QOp.pop]
      = [some 10, some 20, some 30] :=
  ⟨fun _ ops q => runQueue_eq_runNaive ops q, rfl, rfl⟩

/-- C2: when pop runs with the pop list empty it exchanges the push head with
null in one step; if the captured list was null the result is absent (and the
state stays empty); otherwise the captured newest-first list is reversed into
oldest-first order, everything except the oldest entry is stored into the pop
head, the oldest entry is deleted, and its value is returned.  Stated as one
equation: the returned value is the last (oldest) element of the captured
push list, the new push head is null, and the new pop head holds the captured
list in oldest-first order with the oldest entry removed. -/
theorem pop_refill {T : Type} (q : LocklessQueue T) (h : q.mPop = []) :
    pop q = (q.mPush.getLast?, ⟨[], q.mPush.reverse.tail⟩) := by
  rcases q with ⟨mPush, mPop⟩
  obtain rfl : mPop = [] := h
  cases mPush with
  | nil => rfl
  | cons g gs =>
    have hrr := reverseLoop_reverse gs g
    simp only [pop]
    rw [← List.head?_reverse, ← hrr]
    rfl

/-- Witness for C2 at a concrete state: push list `[3, 2, 1]` (so 1 was
pushed first), pop list empty. -/
theorem pop_refill_witness :
    pop (⟨[3, 2, 1], []⟩ : LocklessQueue Nat) = (some 1, ⟨[], [2, 3]⟩) := by
  rw [pop_refill (⟨[3, 2, 1], []⟩ : LocklessQueue Nat) rfl]
  rfl

/-- C4: at every state reachable by a sequence of queue operations, the ids
of the entries on the push list and on the pop list are disjoint — no
allocated entry is reachable from both lists — and every operation (push,
pop, isEmpty) preserves the disjointness invariant. -/
theorem entries_disjoint {T : Type} :
    (∀ ops : List (AOp T),
      List.Disjoint (entryIds (runA ops).mPush) (entryIds (runA ops).mPop)) ∧
    (∀ (q : AQueue T) (op : AOp T), AInv q → AInv (stepA q op)) := by
  constructor
  · intro ops
    have h := (AInv_runA (T := T) ops).1
    rw [entryIds, List.map_append] at h
    exact List.disjoint_of_nodup_append h
  · exact fun q op h => AInv_stepA q op h

/-- Witness for C4: a concrete state satisfying the invariant, one step of
pop on it, and disjointness of a concrete reachable state. -/
theorem entries_disjoint_witness :
    AInv (⟨[(1, 10)], [(0, 20)], 2⟩ : AQueue Nat) ∧
    AInv (stepA (⟨[(1, 10)], [(0, 20)], 2⟩ : AQueue Nat) AOp.pop) ∧
    List.Disjoint
      (entryIds (runA [AOp.push 5, AOp.push 6, AOp.pop]).mPush)
      (entryIds (runA ([AOp.push 5, AOp.push 6, AOp.pop] : List (AOp Nat))).mPop) :=
  ⟨by decide, entries_disjoint.2 _ AOp.pop (by decide), entries_disjoint.1 _⟩

/-- C5: from any state with both heads null, pop returns the absent value
without changing the state (both heads stay null); a freshly constructed
queue reports isEmpty and pop on it returns absent. -/
theorem pop_empty_contract {T : Type} (q : LocklessQueue T)
    (hpush : q.mPush = []) (hpop : q.mPop = []) :
    pop q = (none, q) ∧ (pop q).2.mPush = [] ∧ (pop q).2.mPop = [] ∧
    (isEmptyOp (emptyQueue T)).1 = true ∧
    pop (emptyQueue T) = (none, emptyQueue T) := by
  rcases q with ⟨mPush, mPop⟩
  obtain rfl : mPush = [] := hpush
  obtain rfl : mPop = [] := hpop
  exact ⟨rfl, rfl, rfl, rfl, rfl⟩

/-- Witness for C5 at the freshly constructed queue. -/
theorem pop_empty_contract_witness :
    pop (emptyQueue Nat) = (none, emptyQueue Nat) ∧
    (isEmptyOp (emptyQueue Nat)).1 = true := by
  have h := pop_empty_contract (emptyQueue Nat) rfl rfl
  exact ⟨h.1, h.2.2.2.1⟩

/-- C6: pop terminates with a definite result (a value or the absent value):
the instrumented variant computes the same result as pop, and the number of
reversal-loop iterations it counts is at most the length of the captured
push-list batch being reversed (the whole push list). -/
theorem pop_bounded {T : Type} (q : LocklessQueue T) :
    (popCount q).1 = pop q ∧
    (popCount q).2 ≤ q.mPush.length ∧
    ((pop q).1 = none ∨ ∃ v, (pop q).1 = some v) := by
  refine ⟨popCount_fst q, popCount_le q, ?_⟩
  cases h : (pop q).1 with
  | none => exact Or.inl rfl
  | some v => exact Or.inr ⟨v, rfl⟩

/-- C7: isEmpty returns the conjunction of the two null checks — it is true
exactly when both the push head and the pop head read null — and it leaves
the queue state completely unchanged. -/
theorem isEmpty_spec {T : Type} (q : LocklessQueue T) :
    ((isEmptyOp q).1 = true ↔ q.mPush = [] ∧ q.mPop = []) ∧
    (isEmptyOp q).2 = q := by
  refine ⟨?_, rfl⟩
  simp [isEmptyOp, List.isEmpty_iff]

/-- C8: push never reads or writes the pop head: the pop list after a push is
exactly the pop list before it, and push's whole effect is to prepend the new
entry to the push list (in the allocation-tracking model the new entry is the
one fresh allocation and the pop list is again untouched). -/
theorem push_frame {T : Type} (q : LocklessQueue T) (v : T) (aq : AQueue T) (w : T) :
    (push q v).mPop = q.mPop ∧ (push q v).mPush = v :: q.mPush ∧
    (pushA aq w).mPop = aq.mPop ∧
    (pushA aq w).mPush = (aq.nextId, w) :: aq.mPush ∧
    (pushA aq w).nextId = aq.nextId + 1 :=
  ⟨rfl, rfl, rfl, rfl, rfl⟩

/-- C9: push-then-pop on the empty queue is a round trip: it returns the
pushed value and restores both heads to null (the single-entry drain path
stores null into the pop head), so isEmpty reports true afterwards. -/
theorem push_pop_roundtrip {T : Type} (v : T) :
    pop (push (emptyQueue T) v) = (some v, emptyQueue T) ∧
    (isEmptyOp (pop (push (emptyQueue T) v)).2).1 = true :=
  ⟨rfl, rfl⟩

/-!
Concurrency model.  The only memory shared between threads is the atomic
`mPush` head: each `push` touches it exactly once, at its successful
`compare_exchange` (a failed CAS only rewrites the not-yet-published entry's
`mNext` and retries), and each `pop` touches it at most once, at the
`exchange`; `mPop` is only ever touched by the single consumer.  Hence any
fine-grained interleaving of P producers and the consumer is equivalent to a
schedule: a sequence of linearisation events, each being either "producer i's
next push lands" (`some i`) or "the consumer runs one pop" (`none`).
-/

/-- Global state of a run: the queue, the values each producer has not yet
pushed (producer i's pending list sits at index i), and the values the
consumer has popped so far, in pop order. -/
structure MPState (T : Type) where
  queue : LocklessQueue T
  remaining : List (List T)
  popped : List T

/-- One linearisation event: `some i` is a successful CAS by producer `i`
(pushing its next pending value, a no-op if it has none left), `none` is one
`pop()` call by the consumer (recording the value if one was returned). -/
def mpStep {T : Type} (s : MPState T) : Option Nat → MPState T
  | some i =>
    match s.remaining.getD i [] with
    | [] => s
    | v :: rest => ⟨push s.queue v, s.remaining.set i rest, s.popped⟩
  | none => ⟨(pop s.queue).2, s.remaining, s.popped ++ (pop s.queue).1.toList⟩

/-- Run a whole schedule from the initial state: empty queue, every producer
still holding its full sequence, nothing popped. -/
def mpRun {T : Type} (seqs : List (List T)) (sched : List (Option Nat)) : MPState T :=
  sched.foldl mpStep ⟨emptyQueue T, seqs, []⟩

/-- Every value that has entered the queue, in logical FIFO order: first the
already-popped values, then the current queue contents. -/
def history {T : Type} (s : MPState T) : List T := s.popped ++ absQueue s.queue

theorem getD_set_ne {T : Type} :
    ∀ (ls : List (List T)) (i j : Nat) (x : List T), i ≠ j →
      (ls.set i x).getD j [] = ls.getD j [] := by
  intro ls
  induction ls with
  | nil => intro i j x hij; simp
  | cons hd tl ih =>
    intro i j x hij
    cases i with
    | zero =>
      cases j with
      | zero => exact absurd rfl hij
      | succ j => simp [List.set]
    | succ i =>
      cases j with
      | zero => simp [List.set]
      | succ j => simpa [List.set] using ih i j x (fun h => hij (by rw [h]))

theorem getD_set_self {T : Type} :
    ∀ (ls : List (List T)) (i : Nat) (x : List T),
      ls.getD i [] ≠ [] → (ls.set i x).getD i [] = x := by
  intro ls
  induction ls with
  | nil => intro i x h; simp at h
  | cons hd tl ih =>
    intro i x h
    cases i with
    | zero => simp [List.set]
    | succ i => simpa [List.set] using ih i x (by simpa using h)

theorem flatten_set_perm {T : Type} :
    ∀ (ls : List (List T)) (i : Nat) (v : T) (rest : List T),
      ls.getD i [] = v :: rest →
        List.Perm ls.flatten (v :: (ls.set i rest).flatten) := by
  intro ls
  induction ls with
  | nil => intro i v rest h; simp at h
  | cons hd tl ih =>
    intro i v rest h
    cases i with
    | zero =>
      have : hd = v :: rest := by simpa using h
      subst this
      simp [List.set]
    | succ i =>
      have h2 : tl.getD i [] = v :: rest := by simpa using h
      have hp := ih i v rest h2
      have hstep : List.Perm ((hd :: tl).flatten) (hd ++ v :: (tl.set i rest).flatten) := by
        rw [List.flatten_cons]
        exact List.Perm.append_left hd hp
      have hmid : List.Perm (hd ++ v :: (tl.set i rest).flatten)
          (v :: (hd ++ (tl.set i rest).flatten)) := List.perm_middle
      have hfin : v :: (hd ++ (tl.set i rest).flatten)
          = v :: ((hd :: tl).set (i + 1) rest).flatten := by simp [List.set]
      rw [← hfin]
      exact hstep.trans hmid

theorem flatten_eq_nil_getD {T : Type} :
    ∀ (ls : List (List T)) (i : Nat), ls.flatten = [] → ls.getD i [] = [] := by
  intro ls
  induction ls with
  | nil => intro i h; simp
  | cons hd tl ih =>
    intro i h
    rw [List.flatten_cons, List.append_eq_nil] at h
    cases i with
    | zero => simpa using h.1
    | succ i => simpa using ih i h.2

theorem abs_pop_toList {T : Type} (q : LocklessQueue T) :
    (pop q).1.toList ++ absQueue (pop q).2 = absQueue q := by
  rw [abs_pop_fst, abs_pop_snd]
  cases absQueue q with
  | nil => rfl
  | cons a t => rfl

/-- The run invariant, for a tagging function `tag` and per-producer
sequences `seqs`: (1) every value still pending at producer i carries tag i;
(2) for each i, the values tagged i that have entered the queue so far,
followed by producer i's pending values, are exactly producer i's sequence,
in order; (3) entered and pending values together are a permutation of all
the sequences together. -/
def MPInv {T : Type} (tag : T → Nat) (seqs : List (List T)) (s : MPState T) : Prop :=
  (∀ i, ∀ v ∈ s.remaining.getD i [], tag v = i) ∧
  (∀ i, (history s).filter (fun w => tag w == i) ++ s.remaining.getD i [] = seqs.getD i []) ∧
  List.Perm (history s ++ s.remaining.flatten) seqs.flatten

theorem mpStep_inv {T : Type} (tag : T → Nat) (seqs : List (List T))
    (s : MPState T) (e : Option Nat) (h : MPInv tag seqs s) :
    MPInv tag seqs (mpStep s e) := by
  obtain ⟨ht, hf, hp⟩ := h
  cases e with
  | none =>
    have hh : history (mpStep s none) = history s := by
      show (s.popped ++ (pop s.queue).1.toList) ++ absQueue (pop s.queue).2
          = s.popped ++ absQueue s.queue
      rw [List.append_assoc, abs_pop_toList]
    exact ⟨ht, fun i => by rw [hh]; exact hf i, by rw [hh]; exact hp⟩
  | some j =>
    cases hj : s.remaining.getD j [] with
    | nil =>
      have hid : mpStep s (some j) = s := by
        simp only [mpStep]
        rw [hj]
      rw [hid]
      exact ⟨ht, hf, hp⟩
    | cons v rest =>
      have hs : mpStep s (some j) = ⟨push s.queue v, s.remaining.set j rest, s.popped⟩ := by
        simp only [mpStep]
        rw [hj]
      have hrem : (mpStep s (some j)).remaining = s.remaining.set j rest := by rw [hs]
      have htv : tag v = j := ht j v (by rw [hj]; exact List.mem_cons_self _ _)
      have hh : history (mpStep s (some j)) = history s ++ [v] := by
        rw [history, hs]
        show s.popped ++ absQueue (push s.queue v) = (s.popped ++ absQueue s.queue) ++ [v]
        rw [abs_push, List.append_assoc]
      refine ⟨?_, ?_, ?_⟩
      · intro i w hw
        rw [hrem] at hw
        by_cases hij : i = j
        · subst hij
          rw [getD_set_self _ _ _ (by rw [hj]; exact List.cons_ne_nil _ _)] at hw
          exact ht i w (by rw [hj]; exact List.mem_cons_of_mem _ hw)
        · rw [getD_set_ne _ j i _ (fun h2 => hij h2.symm)] at hw
          exact ht i w hw
      · intro i
        rw [hh, List.filter_append, hrem]
        by_cases hij : i = j
        · subst hij
          have hvf : List.filter (fun w => tag w == i) [v] = [v] := by
            simp [List.filter, htv]
          rw [hvf, getD_set_self _ _ _ (by rw [hj]; exact List.cons_ne_nil _ _)]
          have h3 := hf i
          rw [hj] at h3
          rw [List.append_assoc]
          simpa using h3
        · have hvb : (tag v == i) = false := by
            simp only [htv, beq_eq_false_iff_ne, ne_eq]
            exact fun h2 => hij h2.symm
          have hvf : List.filter (fun w => tag w == i) [v] = [] := by
            simp [List.filter, hvb]
          rw [hvf, List.append_nil, getD_set_ne _ j i _ (fun h2 => hij h2.symm)]
          exact hf i
      · rw [hh, hrem, List.append_assoc]
        have hperm := flatten_set_perm s.remaining j v rest hj
        have h4 : List.Perm (history s ++ ([v] ++ (s.remaining.set j rest).flatten))
            (history s ++ s.remaining.flatten) :=
          List.Perm.append_left _ (by simpa using hperm.symm)
        exact h4.trans hp

theorem mpFold_inv {T : Type} (tag : T → Nat) (seqs : List (List T)) :
    ∀ (sched : List (Option Nat)) (s : MPState T),
      MPInv tag seqs s → MPInv tag seqs (sched.foldl mpStep s) := by
  intro sched
  induction sched with
  | nil => exact fun s h => h
  | cons e rest ih => exact fun s h => ih _ (mpStep_inv tag seqs s e h)

theorem mpRun_inv {T : Type} (tag : T → Nat) (seqs : List (List T))
    (sched : List (Option Nat))
    (h1 : ∀ i, ∀ v ∈ seqs.getD i [], tag v = i) :
    MPInv tag seqs (mpRun seqs sched) := by
  apply mpFold_inv
  refine ⟨h1, ?_, ?_⟩
  · intro i; simp [history, absQueue, emptyQueue]
  · simp [history, absQueue, emptyQueue]

/-- C3: for every schedule interleaving P producers (each pushing its own
tagged sequence, values of producer i tagged i) with a single consumer, if the
consumer has observed as many values as were pushed in total, then the popped
values are a permutation of all pushed values (no value lost, none
duplicated), and for each producer the subsequence of popped values carrying
that producer's tag is exactly that producer's sequence, in push order. -/
theorem producers_no_loss_no_dup {T : Type} (tag : T → Nat)
    (seqs : List (List T)) (sched : List (Option Nat))
    (h1 : ∀ i, ∀ v ∈ seqs.getD i [], tag v = i)
    (h2 : (mpRun seqs sched).popped.length = seqs.flatten.length) :
    List.Perm (mpRun seqs sched).popped seqs.flatten ∧
    ∀ i, (mpRun seqs sched).popped.filter (fun w => tag w == i) = seqs.getD i [] := by
  obtain ⟨ht, hf, hp⟩ := mpRun_inv tag seqs sched h1
  have hlen := hp.length_eq
  rw [history] at hlen
  simp only [List.length_append] at hlen
  have habs : absQueue (mpRun seqs sched).queue = [] :=
    List.length_eq_zero.mp (by omega)
  have hflat : (mpRun seqs sched).remaining.flatten = [] :=
    List.length_eq_zero.mp (by omega)
  constructor
  · have h5 := hp
    rw [history, habs, hflat, List.append_nil, List.append_nil] at h5
    exact h5
  · intro i
    have h6 := hf i
    rw [history, habs, List.append_nil, flatten_eq_nil_getD _ i hflat,
      List.append_nil] at h6
    exact h6

/-- Witness for C3: two producers, producer 0 pushing (0,1) then (0,2) and
producer 1 pushing (1,5), interleaved with three consumer pops that span a
refill boundary; the tag of a value is its first component. -/
theorem producers_no_loss_no_dup_witness :
    (∀ i, ∀ v ∈ ([[(0, 1), (0, 2)], [(1, 5)]] : List (List (Nat × Nat))).getD i [],
      Prod.fst v = i) ∧
    (mpRun [[(0, 1), (0, 2)], [(1, 5)]]
      [some 0, some 1, none, some 0, none, none]).popped.length
      = ([[(0, 1), (0, 2)], [(1, 5)]] : List (List (Nat × Nat))).flatten.length ∧
    List.Perm
      (mpRun [[(0, 1), (0, 2)], [(1, 5)]]
        [some 0, some 1, none, some 0, none, none]).popped
      ([[(0, 1), (0, 2)], [(1, 5)]] : List (List (Nat × Nat))).flatten := by
  have h1 : ∀ i, ∀ v ∈ ([[(0, 1), (0, 2)], [(1, 5)]] : List (List (Nat × Nat))).getD i [],
      Prod.fst v = i := by
    intro i v hv
    rcases i with _ | (_ | i)
    · simp at hv
      rcases hv with rfl | rfl <;> rfl
    · simp at hv
      subst hv
      rfl
    · simp [List.getD] at hv
  refine ⟨h1, by decide, ?_⟩
  exact (producers_no_loss_no_dup Prod.fst
    [[(0, 1), (0, 2)], [(1, 5)]] [some 0, some 1, none, some 0, none, none]
    h1 (by decide)).1

end LocklessQueueSpec

namespace TestUtilsSpec

/-!
Model of `TestCounter` from `services/vibratorservice/test/test_utils.h`,
restricted to its single-threaded semantics.  `mCount` is an `int32_t`; the
mutex and condition variable carry no single-threaded state, so the counter
state is just `mCount`.  `mCount += 1` is 32-bit signed addition, modelled
with two's-complement wraparound.
-/

/-- Two's-complement wrap of an integer into the `int32_t` range
`[-2147483648, 2147483647]`. -/
def toInt32 (x : Int) : Int := (x + 2147483648) % 4294967296 - 2147483648

/-- The single-threaded state of a `TestCounter`. -/
structure TestCounter where
  mCount : Int
deriving DecidableEq, Repr

/-- `TestCounter(int32_t init = 0)`: stores `init` (already an `int32_t`). -/
def TestCounter.init (i : Int) : TestCounter := ⟨i⟩

/-- `get()`: returns `mCount`. -/
def TestCounter.get (c : TestCounter) : Int := c.mCount

/-- `increment()`: `mCount += 1` on `int32_t` (which wraps at the type's
upper bound), then notifies the condition variable (no counter effect). -/
def TestCounter.increment (c : TestCounter) : TestCounter := ⟨toInt32 (c.mCount + 1)⟩

/-- `n` successive `increment()` calls. -/
def TestCounter.incN (c : TestCounter) : Nat → TestCounter
  | 0 => c
  | n + 1 => (TestCounter.incN c n).increment

theorem toInt32_add_one (x : Int) : toInt32 (toInt32 x + 1) = toInt32 (x + 1) := by
  unfold toInt32
  omega

theorem toInt32_of_range (x : Int) (hlo : -2147483648 ≤ x) (hhi : x ≤ 2147483647) :
    toInt32 x = x := by
  unfold toInt32
  omega

theorem incN_mCount (i : Int) : ∀ n : Nat,
    (TestCounter.incN ⟨toInt32 i⟩ n).mCount = toInt32 (i + n) := by
  intro n
  induction n with
  | zero => simp [TestCounter.incN]
  | succ n ih =>
    have hstep : (TestCounter.incN ⟨toInt32 i⟩ (n + 1)).mCount
        = toInt32 ((TestCounter.incN ⟨toInt32 i⟩ n).mCount + 1) := rfl
    rw [hstep, ih, toInt32_add_one]
    congr 1
    push_cast
    ring

/-- C10 counterexample: starting from the default-constructed counter
(`init = 0`) and incrementing 2147483648 times, `get()` returns
`-2147483648` (the `int32_t` counter has wrapped), not `0 + 2147483648` as
the claim requires for every `n`. -/
theorem testCounter_overflow_cex :
    (TestCounter.incN (TestCounter.init 0) 2147483648).get = -2147483648 ∧
    (-2147483648 : Int) ≠ (0 : Int) + (2147483648 : Nat) := by
  constructor
  · have h0 : TestCounter.init 0 = (⟨toInt32 0⟩ : TestCounter) := by
      unfold TestCounter.init toInt32
      norm_num
    rw [TestCounter.get, h0, incN_mCount]
    unfold toInt32
    norm_num
  · norm_num

/-- C10 (amended): in single-threaded use, as long as the count never leaves
the `int32_t` range — `-2147483648 ≤ init` and `init + n ≤ 2147483647` — the
counter is exact: `get()` returns `init` after construction and `init + n`
after `n` calls to `increment()`, and each of those increments increases the
count by exactly one. -/
theorem testCounter_exact (init : Int) (n : Nat)
    (hlo : -2147483648 ≤ init) (hhi : init + n ≤ 2147483647) :
    (TestCounter.init init).get = init ∧
    ((TestCounter.init init).incN n).get = init + n ∧
    ∀ m : Nat, m < n →
      ((TestCounter.init init).incN (m + 1)).get
        = ((TestCounter.init init).incN m).get + 1 := by
  have h0 : TestCounter.init init = (⟨toInt32 init⟩ : TestCounter) := by
    unfold TestCounter.init
    rw [toInt32_of_range init hlo (by omega)]
  have key : ∀ m : Nat, (m : Int) ≤ (n : Int) →
      ((TestCounter.init init).incN m).get = init + m := by
    intro m hm
    rw [TestCounter.get, h0, incN_mCount]
    exact toInt32_of_range _ (by omega) (by omega)
  refine ⟨rfl, key n le_rfl, ?_⟩
  intro m hmn
  have hm1 : ((m : Int) + 1) ≤ (n : Int) := by exact_mod_cast hmn
  rw [key m (by omega), key (m + 1) (by push_cast; omega)]
  push_cast
  ring

/-- Witness for the amended C10: `init = 5`, three increments. -/
theorem testCounter_exact_witness :
    (TestCounter.init 5).get = 5 ∧ ((TestCounter.init 5).incN 3).get = 5 + 3 := by
  have h := testCounter_exact 5 3 (by norm_num) (by norm_num)
  exact ⟨h.1, by exact_mod_cast h.2.1⟩

end TestUtilsSpec
